import Mathlib

/-
Verification of the core rendering pipeline of a CPU ray tracer
(hittable.h / hittable_list.h / material.h / camera.h).

Scalars are modelled by the rationals.  The program's `infinity`
(used as an interval upper bound) is modelled by an explicit
extended upper-bound type.  Operations whose definitions live in
files that are not part of the embedded sources (vec3.h, interval.h,
sphere.h) are modelled from the spec, and square roots, unit-vector
normalisation and random draws are passed in as explicit parameters,
so every statement quantifies over all of their possible values.
-/

namespace RT

/-- A 3-component vector of rationals; models `vec3` (a triple of doubles),
also used for points (`point3`) and colors (`color`). -/
structure vec3 where
  x : ℚ
  y : ℚ
  z : ℚ
deriving DecidableEq

instance : Add vec3 := ⟨fun a b => ⟨a.x + b.x, a.y + b.y, a.z + b.z⟩⟩

instance : Neg vec3 := ⟨fun a => ⟨-a.x, -a.y, -a.z⟩⟩

instance : SMul ℚ vec3 := ⟨fun q a => ⟨q * a.x, q * a.y, q * a.z⟩⟩

/-- Componentwise product, as used for `color * color` attenuation. -/
instance : Mul vec3 := ⟨fun a b => ⟨a.x * b.x, a.y * b.y, a.z * b.z⟩⟩

/-- Dot product of two vectors. -/
def dot (a b : vec3) : ℚ := a.x * b.x + a.y * b.y + a.z * b.z

/-- Mirror reflection of `v` about the normal `n`:
`reflect formula = v - 2*dot(v,n)*n` (material.h). -/
def reflect (v n : vec3) : vec3 := v + (-(2 * dot v n)) • n

/-- Modelled from the spec: tolerance of the near-zero test on a vector
(vec3.h is not among the embedded sources). -/
def near_zero_eps : ℚ := 1 / 100000000

/-- Modelled from the spec: the degenerate-direction check `vec3::near_zero`
(vec3.h is not among the embedded sources); a vector is near zero when every
component is below the tolerance in absolute value. -/
def vec3.near_zero (v : vec3) : Bool :=
  decide (|v.x| < near_zero_eps) && decide (|v.y| < near_zero_eps) &&
    decide (|v.z| < near_zero_eps)

/-- A ray: origin point plus direction vector. -/
structure ray where
  origin : vec3
  direction : vec3
deriving DecidableEq

/-- An extended upper bound: a finite rational or the program's `infinity`. -/
inductive ub where
  | fin (q : ℚ)
  | inf
deriving DecidableEq

/-- `u.gtq t` means the upper bound `u` lies strictly above the rational `t`. -/
def ub.gtq (u : ub) (t : ℚ) : Prop :=
  match u with
  | ub.fin q => t < q
  | ub.inf => True

instance (u : ub) (t : ℚ) : Decidable (u.gtq t) :=
  match u with
  | ub.fin q => inferInstanceAs (Decidable (t < q))
  | ub.inf => inferInstanceAs (Decidable True)

/-- Order on upper bounds, used to compare a shrunken bound with the original. -/
def ub.le (a b : ub) : Prop :=
  match a, b with
  | ub.fin p, ub.fin q => p ≤ q
  | ub.fin _, ub.inf => True
  | ub.inf, ub.fin _ => False
  | ub.inf, ub.inf => True

/-- Modelled from the spec: the `interval` class (interval.h is not among the
embedded sources): a scalar range with a strict containment (`surrounds`)
check.  The upper bound may be the program's `infinity`. -/
structure interval where
  min : ℚ
  max : ub
deriving DecidableEq

/-- Strict containment, `min < t < max`, per the spec's strictly-less-than
closest-hit comparison. -/
def interval.surrounds (i : interval) (t : ℚ) : Prop :=
  i.min < t ∧ i.max.gtq t

instance (i : interval) (t : ℚ) : Decidable (i.surrounds t) :=
  inferInstanceAs (Decidable (i.min < t ∧ i.max.gtq t))

/-- `hit_record`: point, normal, parameter `t`, material reference (an
identifier here) and the side flag, as in hittable.h. -/
structure hit_record where
  point : vec3
  normal : vec3
  t : ℚ
  mat : Nat
  front_face : Bool
deriving DecidableEq

/-- `hit_record::set_face_normal` from hittable.h:
`front_face = dot(r.direction(), outward_normal) < 0.0;`
`normal = front_face ? outward_normal : -outward_normal;`. -/
def hit_record.set_face_normal (rec : hit_record) (r : ray)
    (outward_normal : vec3) : hit_record :=
  let ff := decide (dot r.direction outward_normal < 0)
  { rec with front_face := ff,
             normal := if ff then outward_normal else -outward_normal }

/-- Among a list of hit records, the one with minimum `t`, the earliest
winning ties (the aggregate's strictly-less-than comparison makes the
first-tested member win ties). -/
def nearest_rec : List hit_record → Option hit_record
  | [] => none
  | rec :: rest =>
    match nearest_rec rest with
    | none => some rec
    | some best => if best.t < rec.t then some best else some rec

/-- Modelled from the spec: a geometric member of the collection (e.g. a
sphere; sphere.h is not among the embedded sources) is represented by its
intersection records along each ray. -/
def hittable := ray → List hit_record

/-- Modelled from the spec (§4.1): a member's `hit(ray, t_interval)` returns
the nearest of its intersections whose `t` lies inside the interval, or none. -/
def hittable.hit (obj : hittable) (r : ray) (ray_t : interval) :
    Option hit_record :=
  nearest_rec ((obj r).filter (fun rec => decide (ray_t.surrounds rec.t)))

/-- `hittable_list` from hittable_list.h: an ordered sequence of members. -/
structure hittable_list where
  objects : List hittable

/-- The loop body of `hittable_list::hit`: state is
`(hit_anything, closest_so_far, rec)`; each member is tested on
`interval(ray_t.min, closest_so_far)` and on a hit the state is updated to
`(true, temp_rec.t, temp_rec)`. -/
def hl_loop (r : ray) (tmin : ℚ) :
    List hittable → Bool → ub → hit_record → Bool × ub × hit_record
  | [], b, closest, rec => (b, closest, rec)
  | obj :: rest, b, closest, rec =>
    match obj.hit r ⟨tmin, closest⟩ with
    | some temp => hl_loop r tmin rest true (ub.fin temp.t) temp
    | none => hl_loop r tmin rest b closest rec

/-- `hittable_list::hit` from hittable_list.h: iterate the members with a
shrinking upper bound starting at `ray_t.max`; `rec` is the caller-supplied
record, only assigned when a member reports a hit; returns the hit status
and the final record. -/
def hittable_list.hit (hl : hittable_list) (r : ray) (ray_t : interval)
    (rec : hit_record) : Bool × hit_record :=
  let st := hl_loop r ray_t.min hl.objects false ray_t.max rec
  (st.1, st.2.2)

/-- The collection's hit as an optional record (callers such as
`camera::ray_color` pass a fresh default record and test the returned flag). -/
def hittable_list.hitOpt (hl : hittable_list) (r : ray) (ray_t : interval) :
    Option hit_record :=
  let res := hl.hit r ray_t ⟨⟨0, 0, 0⟩, ⟨0, 0, 0⟩, 0, 0, false⟩
  if res.1 then some res.2 else none

/-- The spec's description of the aggregate: test each member individually
over the same interval and take the hit with minimum `t` among valid hits
(first-tested member winning ties). -/
def spec_nearest_hit (hl : hittable_list) (r : ray) (ray_t : interval) :
    Option hit_record :=
  nearest_rec (hl.objects.filterMap (fun obj => obj.hit r ray_t))

/-- Combine two optional hits, keeping the one with smaller `t` and the
first on ties (the aggregate's strictly-less-than update). -/
def mergeHit : Option hit_record → Option hit_record → Option hit_record
  | none, b => b
  | some a, none => some a
  | some a, some b => if b.t < a.t then some b else some a

/-- Restrict an optional hit to those lying strictly below the bound `t0`. -/
def shrinkOpt (t0 : ub) : Option hit_record → Option hit_record
  | some rec => if t0.gtq rec.t then some rec else none
  | none => none

/-- Lambertian (diffuse) material from material.h. -/
structure lambertian where
  albedo : vec3
deriving DecidableEq

/-- `lambertian::scatter`: direction is `hit.normal + random_unit_vector()`
(the random unit vector is the explicit argument `rand_unit`), replaced by
the normal itself when near zero; always scatters with the albedo as
attenuation.  Result is `(return value, attenuation, scattered)`. -/
def lambertian.scatter (m : lambertian) (r_in : ray) (hit : hit_record)
    (rand_unit : vec3) : Bool × vec3 × ray :=
  let scatter_direction := hit.normal + rand_unit
  let scatter_direction :=
    if scatter_direction.near_zero then hit.normal else scatter_direction
  (true, m.albedo, ⟨hit.point, scatter_direction⟩)

/-- Metal material from material.h. -/
structure metal where
  albedo : vec3
  fuzz : ℚ
deriving DecidableEq

/-- The `metal(a, f)` constructor: `albedo(a), fuzz(f < 1 ? f : 1)`. -/
def metal.make (a : vec3) (f : ℚ) : metal :=
  ⟨a, if f < 1 then f else 1⟩

/-- `metal::scatter`: reflect the unit incoming direction about the normal,
perturb by `fuzz * random_unit_vector()`, and report a scatter exactly when
the perturbed direction's dot product with the normal is positive.
`uv` stands for `unit_vector` (vec3.h is not among the embedded sources, and
normalisation needs a square root, unavailable on rationals), `rand_unit`
for the random unit vector. -/
def metal.scatter (m : metal) (uv : vec3 → vec3) (r_in : ray)
    (hit : hit_record) (rand_unit : vec3) : Bool × vec3 × ray :=
  let reflection := reflect (uv r_in.direction) hit.normal
  let scattered : ray := ⟨hit.point, reflection + m.fuzz • rand_unit⟩
  let attenuation := m.albedo
  (decide (0 < dot scattered.direction hit.normal), attenuation, scattered)

/-- Dielectric material from material.h. -/
structure dielectric where
  ir : ℚ
deriving DecidableEq

/-- `dielectric::reflectance`: Schlick's approximation. -/
def dielectric.reflectance (cosine ref_idx : ℚ) : ℚ :=
  let r0 := ((1 - ref_idx) / (1 + ref_idx)) ^ 2
  r0 + (1 - r0) * (1 - cosine) ^ 5

/-- `dielectric::scatter`: attenuation is always `color(1,1,1)`; the
direction is a reflection when refraction is impossible
(`refraction_ratio * sin_theta > 1`) or the Schlick reflectance exceeds the
random draw, otherwise a refraction; the function always returns true.
`uv` stands for `unit_vector`, `sq` for the square root, `refr` for
`refract` (all from vec3.h / rtweekend.h, not among the embedded sources),
and `rand` for `random_double()`. -/
def dielectric.scatter (m : dielectric) (uv : vec3 → vec3) (sq : ℚ → ℚ)
    (refr : vec3 → vec3 → ℚ → vec3) (rand : ℚ) (r_in : ray)
    (hit : hit_record) : Bool × vec3 × ray :=
  let attenuation : vec3 := ⟨1, 1, 1⟩
  let refraction_ratio := if hit.front_face then 1 / m.ir else m.ir
  let unit_direction := uv r_in.direction
  let cos_theta := min (dot (-unit_direction) hit.normal) 1
  let sin_theta := sq (1 - cos_theta * cos_theta)
  let cannot_refract := refraction_ratio * sin_theta > 1
  let direction :=
    if cannot_refract ∨ dielectric.reflectance cos_theta refraction_ratio > rand
    then reflect unit_direction hit.normal
    else refr unit_direction hit.normal refraction_ratio
  (true, attenuation, ⟨hit.point, direction⟩)

/-- `camera::ray_color` from camera.h: black once the depth budget is spent;
on a world hit, scatter and recurse with the attenuation multiplied in, or
black when absorbed; on a miss, the sky gradient from the unit direction's
vertical component.  `scat` stands for the hit material's virtual
`scatter` (randomness included), returning none when the ray is absorbed;
`uv` stands for `unit_vector`. -/
def camera.ray_color (scat : ray → hit_record → Option (vec3 × ray))
    (uv : vec3 → vec3) (world : hittable_list) (r : ray) (depth : ℤ) : vec3 :=
  if depth ≤ 0 then ⟨0, 0, 0⟩
  else
    match world.hitOpt r ⟨1 / 1000, ub.inf⟩ with
    | some hit =>
      match scat r hit with
      | some pr => pr.1 * camera.ray_color scat uv world pr.2 (depth - 1)
      | none => ⟨0, 0, 0⟩
    | none =>
      let unit_direction := uv r.direction
      let a := (1 / 2 : ℚ) * (unit_direction.y + 1)
      (1 - a) • (⟨1, 1, 1⟩ : vec3) + a • (⟨1 / 2, 7 / 10, 1⟩ : vec3)
termination_by depth.toNat
decreasing_by
  simp_wf
  omega

/-- The per-pixel accumulation loop of `camera::render`:
`pixel_color` starts at `color(0,0,0)` and accumulates one `ray_color`
result per sample (`sample_color s` abstracts the `ray_color` value of the
`s`-th sample ray). -/
def camera.pixel_color_sum (sample_color : Nat → vec3)
    (samples_per_pixel : Nat) : vec3 :=
  (List.range samples_per_pixel).foldl
    (fun acc s => acc + sample_color s) ⟨0, 0, 0⟩

/-- What `camera::render` hands to the external encoder for a finished
pixel: `write_color(std::cout, pixel_color, samples_per_pixel)`, i.e. the
accumulated color together with the sample count. -/
def camera.handed_to_encoder (sample_color : Nat → vec3)
    (samples_per_pixel : Nat) : vec3 × Nat :=
  (camera.pixel_color_sum sample_color samples_per_pixel, samples_per_pixel)

/-- Follows the spec's words, for comparison with the code: the color the
core hands over is "already divided by sample count", i.e. the average of
the accumulated `ray_color` results. -/
def spec_handed_pixel_color (sample_color : Nat → vec3)
    (samples_per_pixel : Nat) : vec3 :=
  ((samples_per_pixel : ℚ))⁻¹ • camera.pixel_color_sum sample_color samples_per_pixel

/-! Concrete fixtures used to exercise the statements on closed inputs. -/

/-- A concrete ray along the z axis. -/
def wray : ray := ⟨⟨0, 0, 0⟩, ⟨0, 0, 1⟩⟩

/-- A concrete interval from 0 to the program's infinity. -/
def wint : interval := ⟨0, ub.inf⟩

/-- A concrete caller-supplied record. -/
def wrec : hit_record := ⟨⟨0, 0, 0⟩, ⟨0, 0, 1⟩, 7, 9, false⟩

/-- A member whose single intersection along any ray is at `t = 5`. -/
def wobj_far : hittable := fun _ => [⟨⟨0, 0, 5⟩, ⟨0, 0, -1⟩, 5, 0, true⟩]

/-- A member whose single intersection along any ray is at `t = 3`. -/
def wobj_near : hittable := fun _ => [⟨⟨0, 0, 3⟩, ⟨0, 0, -1⟩, 3, 1, true⟩]

/-- A member whose single intersection is at `t = -1`, outside `wint`. -/
def wobj_behind : hittable := fun _ => [⟨⟨0, 0, -1⟩, ⟨0, 0, -1⟩, -1, 2, true⟩]

/-- A concrete two-member collection. -/
def wlist : hittable_list := ⟨[wobj_far, wobj_near]⟩

/-- A concrete collection none of whose members hits inside `wint`. -/
def wlist_miss : hittable_list := ⟨[wobj_behind]⟩

/-- A scatter oracle that always absorbs. -/
def wscat : ray → hit_record → Option (vec3 × ray) := fun _ _ => none

/-! Componentwise evaluation lemmas for the vector operations. -/

theorem vec3.mk_add_mk (a b c d e f : ℚ) :
    (⟨a, b, c⟩ + ⟨d, e, f⟩ : vec3) = ⟨a + d, b + e, c + f⟩ := rfl

theorem vec3.smul_mk (q a b c : ℚ) :
    (q • (⟨a, b, c⟩ : vec3)) = ⟨q * a, q * b, q * c⟩ := rfl

theorem vec3.mul_mk (a b c d e f : ℚ) :
    ((⟨a, b, c⟩ : vec3) * ⟨d, e, f⟩) = ⟨a * d, b * e, c * f⟩ := rfl

theorem vec3.neg_mk (a b c : ℚ) : (-(⟨a, b, c⟩ : vec3)) = ⟨-a, -b, -c⟩ := rfl

theorem dot_neg_right (a b : vec3) : dot a (-b) = -dot a b := by
  cases a; cases b
  simp [dot, vec3.neg_mk]
  ring

/-! Order facts about extended upper bounds. -/

theorem ub.gtq_of_le {a b : ub} {t : ℚ} (hab : a.le b) (h : a.gtq t) :
    b.gtq t := by
  cases a <;> cases b <;> simp [ub.gtq, ub.le] at * <;> linarith

theorem ub.gtq_of_le_of_gtq {t0 : ub} {s t : ℚ} (hst : s ≤ t)
    (h : t0.gtq t) : t0.gtq s := by
  cases t0 <;> simp [ub.gtq] at * <;> linarith

theorem ub.fin_le_of_gtq {c : ub} {t : ℚ} (h : c.gtq t) : (ub.fin t).le c := by
  cases c <;> simp [ub.gtq, ub.le] at * <;> linarith

/-! Facts about `nearest_rec`, the minimum-`t` selection. -/

theorem nearest_rec_cons (a : hit_record) (l : List hit_record) :
    nearest_rec (a :: l) = mergeHit (some a) (nearest_rec l) := by
  cases h : nearest_rec l <;> simp [nearest_rec, h, mergeHit]

theorem nearest_rec_ne_none (a : hit_record) (l : List hit_record) :
    nearest_rec (a :: l) ≠ none := by
  cases h : nearest_rec l <;> simp [nearest_rec, h] <;> split <;> simp

theorem nearest_rec_eq_none {l : List hit_record}
    (h : nearest_rec l = none) : l = [] := by
  cases l with
  | nil => rfl
  | cons a l => exact absurd h (nearest_rec_ne_none a l)

theorem nearest_rec_mem {l : List hit_record} {m : hit_record}
    (h : nearest_rec l = some m) : m ∈ l := by
  induction l generalizing m with
  | nil => simp [nearest_rec] at h
  | cons a l ih =>
    rw [nearest_rec_cons] at h
    cases h' : nearest_rec l with
    | none =>
      rw [h'] at h
      simp only [mergeHit, Option.some.injEq] at h
      simp [← h]
    | some best =>
      rw [h'] at h
      simp only [mergeHit] at h
      split at h
      · simp only [Option.some.injEq] at h
        exact List.mem_cons_of_mem _ (h ▸ ih h')
      · simp only [Option.some.injEq] at h
        simp [← h]

theorem nearest_rec_min {l : List hit_record} {m : hit_record}
    (h : nearest_rec l = some m) : ∀ x ∈ l, m.t ≤ x.t := by
  induction l generalizing m with
  | nil => simp [nearest_rec] at h
  | cons a l ih =>
    rw [nearest_rec_cons] at h
    intro x hx
    cases h' : nearest_rec l with
    | none =>
      rw [h'] at h
      simp only [mergeHit, Option.some.injEq] at h
      have hl : l = [] := nearest_rec_eq_none h'
      subst hl
      rcases List.mem_cons.mp hx with hxa | hxl
      · rw [hxa, ← h]
      · simp at hxl
    | some best =>
      rw [h'] at h
      simp only [mergeHit] at h
      rcases List.mem_cons.mp hx with hxa | hxl
      · subst hxa
        split at h
        · next hlt =>
            simp only [Option.some.injEq] at h
            rw [← h]
            exact le_of_lt hlt
        · simp only [Option.some.injEq] at h
          rw [← h]
      · split at h
        · next hlt =>
            simp only [Option.some.injEq] at h
            exact (h ▸ ih h') x hxl
        · next hnlt =>
            simp only [Option.some.injEq] at h
            rw [← h]
            exact le_trans (le_of_not_lt hnlt) (ih h' x hxl)

/-! The key commutation of restriction with the closest-hit combination. -/

theorem shrink_merge (t0 : ub) (A B : Option hit_record) :
    shrinkOpt t0 (mergeHit A B) = mergeHit (shrinkOpt t0 A) (shrinkOpt t0 B) := by
  cases A with
  | none => simp [mergeHit, shrinkOpt]
  | some a =>
    cases B with
    | none =>
      simp only [mergeHit, shrinkOpt]
      split <;> simp [mergeHit]
    | some b =>
      by_cases hp : b.t < a.t <;>
        by_cases hqa : t0.gtq a.t <;>
          by_cases hqb : t0.gtq b.t <;>
            simp only [mergeHit, shrinkOpt, if_pos, if_neg, hp, hqa, hqb,
              if_true, if_false] <;>
            first
              | rfl
              | (exact absurd (ub.gtq_of_le_of_gtq (le_of_lt hp) hqa) hqb)
              | (exact absurd (ub.gtq_of_le_of_gtq (le_of_not_lt hp) hqb) hqa)

/-- Restricting the upper bound of the interval commutes with taking the
nearest record of a filtered candidate list. -/
theorem nearest_rec_filter_shrink (l : List hit_record) (tmin : ℚ)
    (t0 c : ub) (hle : t0.le c) :
    nearest_rec (l.filter fun x =>
        decide ((interval.mk tmin t0).surrounds x.t)) =
      shrinkOpt t0 (nearest_rec (l.filter fun x =>
        decide ((interval.mk tmin c).surrounds x.t))) := by
  induction l with
  | nil => simp [nearest_rec, shrinkOpt]
  | cons x l ih =>
    by_cases hm : tmin < x.t
    · by_cases hgc : c.gtq x.t
      · by_cases hgt : t0.gtq x.t
        · rw [List.filter_cons_of_pos (by simp [interval.surrounds, hm, hgt]),
            List.filter_cons_of_pos (by simp [interval.surrounds, hm, hgc]),
            nearest_rec_cons, nearest_rec_cons, ih, shrink_merge]
          have hx : shrinkOpt t0 (some x) = some x := by simp [shrinkOpt, hgt]
          rw [hx]
        · rw [List.filter_cons_of_neg (by simp [interval.surrounds, hgt]),
            List.filter_cons_of_pos (by simp [interval.surrounds, hm, hgc]),
            nearest_rec_cons, ih, shrink_merge]
          have hx : shrinkOpt t0 (some x) = none := by simp [shrinkOpt, hgt]
          rw [hx]
          cases shrinkOpt t0 (nearest_rec (l.filter fun x =>
            decide ((interval.mk tmin c).surrounds x.t))) <;> rfl
      · have hgt : ¬ t0.gtq x.t := fun h => hgc (ub.gtq_of_le hle h)
        rw [List.filter_cons_of_neg (by simp [interval.surrounds, hgt]),
          List.filter_cons_of_neg (by simp [interval.surrounds, hgc])]
        exact ih
    · rw [List.filter_cons_of_neg (by simp [interval.surrounds, hm]),
        List.filter_cons_of_neg (by simp [interval.surrounds, hm])]
      exact ih

/-- A member's hit over a shrunken interval is its hit over the original
interval restricted to the shrunken bound. -/
theorem hittable.hit_shrink (obj : hittable) (r : ray) (tmin : ℚ)
    (t0 c : ub) (hle : t0.le c) :
    obj.hit r ⟨tmin, t0⟩ = shrinkOpt t0 (obj.hit r ⟨tmin, c⟩) :=
  nearest_rec_filter_shrink (obj r) tmin t0 c hle

/-- Any hit a member reports lies strictly inside the queried interval. -/
theorem hittable.hit_surrounds {obj : hittable} {r : ray} {ray_t : interval}
    {m : hit_record} (h : obj.hit r ray_t = some m) : ray_t.surrounds m.t := by
  have hm := nearest_rec_mem h
  have := List.mem_filter.mp hm
  exact of_decide_eq_true this.2

theorem spec_nearest_hit_nil (r : ray) (ray_t : interval) :
    spec_nearest_hit ⟨[]⟩ r ray_t = none := rfl

theorem spec_nearest_hit_cons (o : hittable) (objs : List hittable)
    (r : ray) (ray_t : interval) :
    spec_nearest_hit ⟨o :: objs⟩ r ray_t =
      mergeHit (o.hit r ray_t) (spec_nearest_hit ⟨objs⟩ r ray_t) := by
  cases h : o.hit r ray_t <;>
    simp [spec_nearest_hit, List.filterMap_cons, h, nearest_rec_cons, mergeHit]

/-- Shrinking the interval restricts the spec-side aggregate nearest hit. -/
theorem spec_nearest_hit_shrink (objs : List hittable) (r : ray) (tmin : ℚ)
    (t0 c : ub) (hle : t0.le c) :
    spec_nearest_hit ⟨objs⟩ r ⟨tmin, t0⟩ =
      shrinkOpt t0 (spec_nearest_hit ⟨objs⟩ r ⟨tmin, c⟩) := by
  induction objs with
  | nil => simp [spec_nearest_hit_nil, shrinkOpt]
  | cons o objs ih =>
    rw [spec_nearest_hit_cons, spec_nearest_hit_cons,
      hittable.hit_shrink o r tmin t0 c hle, ih, shrink_merge]

/-- The loop of `hittable_list::hit` computes exactly the spec-side nearest
hit over the current interval, leaving the state alone when there is none. -/
theorem hl_loop_spec (r : ray) (tmin : ℚ) (objs : List hittable) (b : Bool)
    (c : ub) (m : hit_record) :
    hl_loop r tmin objs b c m =
      match spec_nearest_hit ⟨objs⟩ r ⟨tmin, c⟩ with
      | some best => (true, ub.fin best.t, best)
      | none => (b, c, m) := by
  induction objs generalizing b c m with
  | nil => simp [hl_loop, spec_nearest_hit_nil]
  | cons o objs ih =>
    rw [spec_nearest_hit_cons]
    cases h : o.hit r ⟨tmin, c⟩ with
    | none =>
      simp only [hl_loop, h, mergeHit]
      exact ih b c m
    | some temp =>
      have hsur : (interval.mk tmin c).surrounds temp.t :=
        hittable.hit_surrounds h
      have hle : (ub.fin temp.t).le c := ub.fin_le_of_gtq hsur.2
      simp only [hl_loop, h]
      rw [ih true (ub.fin temp.t) temp,
        spec_nearest_hit_shrink objs r tmin (ub.fin temp.t) c hle]
      cases hS : spec_nearest_hit ⟨objs⟩ r ⟨tmin, c⟩ with
      | none => simp [shrinkOpt, mergeHit]
      | some best =>
        simp only [shrinkOpt, mergeHit]
        by_cases hlt : best.t < temp.t
        · rw [if_pos (show (ub.fin temp.t).gtq best.t from hlt),
            if_pos hlt]
        · rw [if_neg (show ¬ (ub.fin temp.t).gtq best.t from hlt),
            if_neg hlt]

/-- `hittable_list::hit` returns exactly the spec-side nearest hit over the
full interval, or reports no hit and leaves the record untouched. -/
theorem hittable_list.hit_eq_spec (hl : hittable_list) (r : ray)
    (ray_t : interval) (m : hit_record) :
    hl.hit r ray_t m =
      match spec_nearest_hit hl r ray_t with
      | some best => (true, best)
      | none => (false, m) := by
  show (let st := hl_loop r ray_t.min hl.objects false ray_t.max m
        (st.1, st.2.2)) = _
  rw [hl_loop_spec]
  have : (⟨ray_t.min, ray_t.max⟩ : interval) = ray_t := rfl
  rw [this]
  cases hl with
  | mk objs =>
    cases spec_nearest_hit ⟨objs⟩ r ray_t <;> rfl

/-- C1: for every ray, interval and list of members, `hittable_list::hit`
returns the same result as testing each member individually over that
interval and taking the hit of minimum `t` among valid hits, and the
aggregate hit's `t` is at most every individual member hit's `t` within the
same interval. -/
theorem C1_hittable_list_hit_is_nearest (hl : hittable_list) (r : ray)
    (ray_t : interval) (m0 : hit_record) :
    ((hl.hit r ray_t m0).1 = true →
        spec_nearest_hit hl r ray_t = some (hl.hit r ray_t m0).2) ∧
    ((hl.hit r ray_t m0).1 = false → spec_nearest_hit hl r ray_t = none) ∧
    (∀ obj ∈ hl.objects, ∀ m, obj.hit r ray_t = some m →
        (hl.hit r ray_t m0).1 = true ∧ (hl.hit r ray_t m0).2.t ≤ m.t) := by
  have H := hittable_list.hit_eq_spec hl r ray_t m0
  cases hS : spec_nearest_hit hl r ray_t with
  | none =>
    rw [hS] at H
    refine ⟨fun h1 => ?_, fun _ => rfl, fun obj hobj m hm => ?_⟩
    · rw [H] at h1; simp at h1
    · exfalso
      have hmem : m ∈ hl.objects.filterMap (fun obj => obj.hit r ray_t) :=
        List.mem_filterMap.mpr ⟨obj, hobj, hm⟩
      have : hl.objects.filterMap (fun obj => obj.hit r ray_t) = [] :=
        nearest_rec_eq_none hS
      rw [this] at hmem
      simp at hmem
  | some best =>
    rw [hS] at H
    refine ⟨fun _ => ?_, fun h0 => ?_, fun obj hobj m hm => ?_⟩
    · rw [H]
    · rw [H] at h0; simp at h0
    · have hmem : m ∈ hl.objects.filterMap (fun obj => obj.hit r ray_t) :=
        List.mem_filterMap.mpr ⟨obj, hobj, hm⟩
      have hmin := nearest_rec_min hS m hmem
      rw [H]
      exact ⟨rfl, hmin⟩

/-- Exercises C1 on a closed two-member collection: the aggregate returns
the member hit of minimum `t`, and its `t` is bounded by the far member's. -/
theorem C1_closed_instance :
    spec_nearest_hit wlist wray wint = some (wlist.hit wray wint wrec).2 ∧
    (wlist.hit wray wint wrec).2.t ≤ 5 := by
  have h := C1_hittable_list_hit_is_nearest wlist wray wint wrec
  refine ⟨h.1 (by decide), ?_⟩
  have h3 := h.2.2 wobj_far (by
      show wobj_far ∈ [wobj_far, wobj_near]
      exact List.mem_cons_self _ _)
    ⟨⟨0, 0, 5⟩, ⟨0, 0, -1⟩, 5, 0, true⟩ (by decide)
  exact h3.2

/-- C10: when the collection's hit reports no hit, the caller-supplied
record comes back completely unchanged. -/
theorem C10_hit_false_leaves_record (hl : hittable_list) (r : ray)
    (ray_t : interval) (m0 : hit_record)
    (h : (hl.hit r ray_t m0).1 = false) : (hl.hit r ray_t m0).2 = m0 := by
  have H := hittable_list.hit_eq_spec hl r ray_t m0
  cases hS : spec_nearest_hit hl r ray_t with
  | none => rw [hS] at H; rw [H]
  | some best => rw [hS] at H; rw [H] at h; simp at h

/-- Exercises C10 on a closed collection whose only member hit lies outside
the interval. -/
theorem C10_closed_instance : (wlist_miss.hit wray wint wrec).2 = wrec :=
  C10_hit_false_leaves_record wlist_miss wray wint wrec (by decide)

/-- A unit-length vector (in the dot-product sense) is never near zero. -/
theorem unit_normal_not_near_zero (v : vec3) (h : dot v v = 1) :
    v.near_zero = false := by
  cases hnz : v.near_zero with
  | false => rfl
  | true =>
    exfalso
    simp only [vec3.near_zero, Bool.and_eq_true, decide_eq_true_eq] at hnz
    obtain ⟨⟨hx, hy⟩, hz⟩ := hnz
    rw [dot] at h
    have heps : near_zero_eps * near_zero_eps = 1 / 10000000000000000 := by
      norm_num [near_zero_eps]
    have ex : v.x * v.x < near_zero_eps * near_zero_eps := by
      rw [← abs_mul_abs_self v.x]
      exact mul_lt_mul'' hx hx (abs_nonneg _) (abs_nonneg _)
    have ey : v.y * v.y < near_zero_eps * near_zero_eps := by
      rw [← abs_mul_abs_self v.y]
      exact mul_lt_mul'' hy hy (abs_nonneg _) (abs_nonneg _)
    have ez : v.z * v.z < near_zero_eps * near_zero_eps := by
      rw [← abs_mul_abs_self v.z]
      exact mul_lt_mul'' hz hz (abs_nonneg _) (abs_nonneg _)
    rw [heps] at ex ey ez
    linarith

/-- C2: for every ray, world, and depth value at most zero, `ray_color`
returns pure black immediately, regardless of scene content. -/
theorem C2_ray_color_depth_exhausted_black
    (scat : ray → hit_record → Option (vec3 × ray)) (uv : vec3 → vec3)
    (world : hittable_list) (r : ray) (depth : ℤ) (h : depth ≤ 0) :
    camera.ray_color scat uv world r depth = ⟨0, 0, 0⟩ := by
  rw [camera.ray_color]
  simp [h]

/-- Exercises C2 at depth zero on a closed scene. -/
theorem C2_closed_instance :
    camera.ray_color wscat id ⟨[]⟩ wray 0 = ⟨0, 0, 0⟩ :=
  C2_ray_color_depth_exhausted_black wscat id ⟨[]⟩ wray 0 (by decide)

/-- C8: for every ray that misses the world (with positive remaining
depth), `ray_color` returns the background gradient
`(1-a)*white + a*skyblue` with `a = 0.5*(y+1)`, `y` the vertical component
of the ray's unit direction; in particular an empty collection yields
exactly this value for every ray. -/
theorem C8_ray_color_miss_background
    (scat : ray → hit_record → Option (vec3 × ray)) (uv : vec3 → vec3)
    (world : hittable_list) (r : ray) (depth : ℤ) (hd : 0 < depth)
    (hmiss : world.hitOpt r ⟨1 / 1000, ub.inf⟩ = none) :
    camera.ray_color scat uv world r depth =
      (1 - (1 / 2 : ℚ) * ((uv r.direction).y + 1)) • (⟨1, 1, 1⟩ : vec3) +
        ((1 / 2 : ℚ) * ((uv r.direction).y + 1)) •
          (⟨1 / 2, 7 / 10, 1⟩ : vec3) ∧
    camera.ray_color scat uv ⟨[]⟩ r depth =
      (1 - (1 / 2 : ℚ) * ((uv r.direction).y + 1)) • (⟨1, 1, 1⟩ : vec3) +
        ((1 / 2 : ℚ) * ((uv r.direction).y + 1)) •
          (⟨1 / 2, 7 / 10, 1⟩ : vec3) := by
  constructor
  · rw [camera.ray_color, if_neg (by omega), hmiss]
  · rw [camera.ray_color, if_neg (by omega)]
    have hempty : hittable_list.hitOpt ⟨[]⟩ r ⟨1 / 1000, ub.inf⟩ = none := rfl
    rw [hempty]

/-- Exercises C8 on a closed empty scene at depth one. -/
theorem C8_closed_instance :
    camera.ray_color wscat id ⟨[]⟩ wray 1 =
      (1 - (1 / 2 : ℚ) * ((id wray.direction).y + 1)) • (⟨1, 1, 1⟩ : vec3) +
        ((1 / 2 : ℚ) * ((id wray.direction).y + 1)) •
          (⟨1 / 2, 7 / 10, 1⟩ : vec3) :=
  (C8_ray_color_miss_background wscat id ⟨[]⟩ wray 1 (by decide) rfl).1

/-- C3: `set_face_normal` stores `front_face = (dot(direction, outward) < 0)`
and a normal equal to the outward normal or its negation accordingly, so the
stored normal's dot product with the ray direction is never positive. -/
theorem C3_set_face_normal_against_ray (m0 : hit_record) (r : ray)
    (n : vec3) (hunit : dot n n = 1) :
    ((m0.set_face_normal r n).front_face = true ↔ dot r.direction n < 0) ∧
    (m0.set_face_normal r n).normal =
      (if dot r.direction n < 0 then n else -n) ∧
    dot r.direction (m0.set_face_normal r n).normal ≤ 0 := by
  by_cases hd : dot r.direction n < 0
  · refine ⟨by simp [hit_record.set_face_normal, hd], ?_, ?_⟩
    · simp [hit_record.set_face_normal, hd]
    · simp [hit_record.set_face_normal, hd]
      exact le_of_lt hd
  · refine ⟨by simp [hit_record.set_face_normal, hd], ?_, ?_⟩
    · simp [hit_record.set_face_normal, hd]
    · simp [hit_record.set_face_normal, hd, dot_neg_right]
      exact le_of_not_lt hd

/-- Exercises C3 with a concrete ray and unit outward normal. -/
theorem C3_closed_instance :
    ((wrec.set_face_normal wray ⟨0, 0, 1⟩).front_face = true ↔
      dot wray.direction ⟨0, 0, 1⟩ < 0) ∧
    (wrec.set_face_normal wray ⟨0, 0, 1⟩).normal =
      (if dot wray.direction ⟨0, 0, 1⟩ < 0 then ⟨0, 0, 1⟩ else -⟨0, 0, 1⟩) ∧
    dot wray.direction (wrec.set_face_normal wray ⟨0, 0, 1⟩).normal ≤ 0 :=
  C3_set_face_normal_against_ray wrec wray ⟨0, 0, 1⟩ (by simp [dot])

/-- C5: the dielectric's scatter always reports success and always writes
the fully transmissive attenuation `(1,1,1)`, whatever the random draw. -/
theorem C5_dielectric_always_scatters (m : dielectric) (uv : vec3 → vec3)
    (sq : ℚ → ℚ) (refr : vec3 → vec3 → ℚ → vec3) (rand : ℚ) (r_in : ray)
    (hit : hit_record) :
    (dielectric.scatter m uv sq refr rand r_in hit).1 = true ∧
    (dielectric.scatter m uv sq refr rand r_in hit).2.1 = ⟨1, 1, 1⟩ :=
  ⟨rfl, rfl⟩

/-- C6: the metal's scatter reports a scatter exactly when the perturbed
reflected direction's dot product with the normal is positive, and reports
absorption whenever that dot product is at most zero. -/
theorem C6_metal_scatter_iff_outward (m : metal) (uv : vec3 → vec3)
    (r_in : ray) (hit : hit_record) (rand_unit : vec3) :
    ((metal.scatter m uv r_in hit rand_unit).1 = true ↔
      0 < dot (metal.scatter m uv r_in hit rand_unit).2.2.direction
        hit.normal) ∧
    (dot (metal.scatter m uv r_in hit rand_unit).2.2.direction hit.normal ≤ 0 →
      (metal.scatter m uv r_in hit rand_unit).1 = false) := by
  constructor
  · simp [metal.scatter]
  · intro hle
    simp only [metal.scatter, decide_eq_false_iff_not]
    exact not_lt.mpr hle

/-- Exercises C6 on a closed absorbing configuration. -/
theorem C6_closed_instance :
    (metal.scatter (metal.make ⟨1, 0, 0⟩ 0) (fun _ => ⟨0, 0, 0⟩) wray wrec
      ⟨0, 0, 0⟩).1 = false :=
  (C6_metal_scatter_iff_outward (metal.make ⟨1, 0, 0⟩ 0) (fun _ => ⟨0, 0, 0⟩)
    wray wrec ⟨0, 0, 0⟩).2
    (by simp [metal.scatter, metal.make, reflect, dot, wrec, wray,
      vec3.mk_add_mk, vec3.smul_mk])

/-- C7: the diffuse scatter always succeeds with the albedo as attenuation,
falls back to the exact hit normal when `normal + random_unit_vector` is
near zero, and (for a unit normal) never yields a near-zero direction. -/
theorem C7_lambertian_never_degenerate (alb : vec3) (r_in : ray)
    (hit : hit_record) (e : vec3)
    (hunit : dot hit.normal hit.normal = 1) :
    (lambertian.scatter ⟨alb⟩ r_in hit e).1 = true ∧
    (lambertian.scatter ⟨alb⟩ r_in hit e).2.1 = alb ∧
    ((hit.normal + e).near_zero = true →
      (lambertian.scatter ⟨alb⟩ r_in hit e).2.2.direction = hit.normal) ∧
    (lambertian.scatter ⟨alb⟩ r_in hit e).2.2.direction.near_zero = false := by
  refine ⟨rfl, rfl, ?_, ?_⟩
  · intro hz
    simp [lambertian.scatter, hz]
  · cases hz : (hit.normal + e).near_zero with
    | true =>
      simp only [lambertian.scatter, hz, if_true]
      exact unit_normal_not_near_zero _ hunit
    | false =>
      simp only [lambertian.scatter, hz, if_false]
      exact hz

/-- Exercises C7 at a configuration where the random unit vector exactly
cancels the unit normal, forcing the fallback. -/
theorem C7_closed_instance :
    (lambertian.scatter ⟨⟨1, 0, 0⟩⟩ wray wrec ⟨0, 0, -1⟩).1 = true ∧
    (lambertian.scatter ⟨⟨1, 0, 0⟩⟩ wray wrec ⟨0, 0, -1⟩).2.1 = ⟨1, 0, 0⟩ ∧
    ((wrec.normal + ⟨0, 0, -1⟩).near_zero = true →
      (lambertian.scatter ⟨⟨1, 0, 0⟩⟩ wray wrec ⟨0, 0, -1⟩).2.2.direction =
        wrec.normal) ∧
    (lambertian.scatter ⟨⟨1, 0, 0⟩⟩ wray wrec
      ⟨0, 0, -1⟩).2.2.direction.near_zero = false :=
  C7_lambertian_never_degenerate ⟨1, 0, 0⟩ wray wrec ⟨0, 0, -1⟩
    (by simp [dot, wrec])

/-- C9: the metal constructor stores `f` itself when `f < 1` and exactly `1`
otherwise, so the stored fuzz factor is always at most `1`; nothing in the
embedded operations modifies it afterwards. -/
theorem C9_metal_fuzz_clamped (a : vec3) (f : ℚ) :
    (metal.make a f).fuzz ≤ 1 ∧
    (f < 1 → (metal.make a f).fuzz = f) ∧
    (1 ≤ f → (metal.make a f).fuzz = 1) ∧
    (metal.make a f).albedo = a := by
  by_cases h : f < 1
  · exact ⟨by simp [metal.make, h]; exact le_of_lt h,
      fun _ => by simp [metal.make, h],
      fun h1 => absurd h (not_lt.mpr h1), rfl⟩
  · exact ⟨by simp [metal.make, h],
      fun h1 => absurd h1 h,
      fun _ => by simp [metal.make, h], rfl⟩

/-- Exercises C9 at a fuzz parameter above the clamp. -/
theorem C9_closed_instance : (metal.make ⟨1, 0, 0⟩ 2).fuzz = 1 :=
  (C9_metal_fuzz_clamped ⟨1, 0, 0⟩ 2).2.2.1 (by decide)

theorem vec3.smul_smul (p q : ℚ) (v : vec3) : p • (q • v) = (p * q) • v := by
  cases v
  simp [vec3.smul_mk, mul_assoc]

theorem vec3.one_smul_eq (v : vec3) : (1 : ℚ) • v = v := by
  cases v
  simp [vec3.smul_mk]

/-- C4 counterexample: with two samples of color `(1,1,1)` the value the
render loop hands to `write_color` is the raw sum `(2,2,2)`, not the
average `(1,1,1)` that the claim says is handed over. -/
theorem C4_counterexample :
    (camera.handed_to_encoder (fun _ => ⟨1, 1, 1⟩) 2).1 ≠
      spec_handed_pixel_color (fun _ => ⟨1, 1, 1⟩) 2 := by
  have hsum : camera.pixel_color_sum (fun _ => (⟨1, 1, 1⟩ : vec3)) 2 =
      ⟨2, 2, 2⟩ := by
    norm_num [camera.pixel_color_sum, List.range_succ, vec3.mk_add_mk]
  intro h
  rw [show (camera.handed_to_encoder (fun _ => (⟨1, 1, 1⟩ : vec3)) 2).1 =
      camera.pixel_color_sum (fun _ => (⟨1, 1, 1⟩ : vec3)) 2 from rfl,
    spec_handed_pixel_color, hsum] at h
  rw [vec3.smul_mk] at h
  have hx := congrArg vec3.x h
  norm_num at hx

/-- C4 (amended): the render loop hands the external encoder the raw
accumulated sum of the per-sample `ray_color` results together with the
sample count (the division by the sample count is performed by the
encoder); the handed color equals the sample count times the average. -/
theorem C4_handed_is_raw_sum (sample_color : Nat → vec3) (spp : Nat)
    (h : spp ≠ 0) :
    camera.handed_to_encoder sample_color spp =
      (camera.pixel_color_sum sample_color spp, spp) ∧
    camera.pixel_color_sum sample_color spp =
      (spp : ℚ) • spec_handed_pixel_color sample_color spp := by
  refine ⟨rfl, ?_⟩
  rw [spec_handed_pixel_color, vec3.smul_smul,
    mul_inv_cancel₀ (Nat.cast_ne_zero.mpr h), vec3.one_smul_eq]

/-- Exercises the amended C4 at a single sample. -/
theorem C4_closed_instance :
    camera.handed_to_encoder (fun _ => ⟨1, 0, 0⟩) 1 =
      (camera.pixel_color_sum (fun _ => ⟨1, 0, 0⟩) 1, 1) ∧
    camera.pixel_color_sum (fun _ => ⟨1, 0, 0⟩) 1 =
      ((1 : Nat) : ℚ) • spec_handed_pixel_color (fun _ => ⟨1, 0, 0⟩) 1 :=
  C4_handed_is_raw_sum (fun _ => ⟨1, 0, 0⟩) 1 (by decide)

end RT
